import Mathlib

/-!
# Verification of `rape.py`

A shallow embedding in Lean 4 of the discretized Bayesian inference script
`rape.py` (Edwards et al. rape-survey analysis).  Machine floats are modelled
by exact rationals `ℚ`; Python's float `inf` sentinel is modelled by `none` in
an `Option ℚ`; a raised `ValueError` is modelled by the outer `none` of an
`Option` result.  All definitions are translated directly from the source.
-/

namespace RapeBayes

/-- The `while` loop of `round_in_list` (rape.py lines 46-48): starting from
index `i`, advance while `the_list[i] < x` and `i < len(the_list) - 1`.
The loop increments `i` at most `len(the_list) - 1` times starting from 0, so
running it with `len(the_list) - 1` units of fuel reproduces it exactly;
out-of-range accesses are modelled by `getD` (the loop never makes one, see
`scanIdx_le`). -/
def scanIdx (x : ℚ) (l : List ℚ) : ℕ → ℕ → ℕ
  | 0, i => i
  | fuel + 1, i =>
      if l.getD i 0 < x ∧ i < l.length - 1 then scanIdx x l fuel (i + 1) else i

/-- rape.py lines 35-61, `round_in_list(x, the_list)` with `value=False`:
round `x` to the nearest value in `the_list` and return its index.
`none` models the `ValueError` raised on an empty list (line 44). -/
def round_in_list (x : ℚ) (l : List ℚ) : Option ℕ :=
  if l.length = 0 then none
  else if scanIdx x l (l.length - 1) 0 = 0 then some 0
  else if x - l.getD (scanIdx x l (l.length - 1) 0 - 1) 0
          < l.getD (scanIdx x l (l.length - 1) 0) 0 - x
       then some (scanIdx x l (l.length - 1) 0 - 1)
       else some (scanIdx x l (l.length - 1) 0)

/-- rape.py lines 35-61, `round_in_list(x, the_list, value=True)`: the same
branches, returning `the_list[i]` instead of `i`. -/
def round_in_list_value (x : ℚ) (l : List ℚ) : Option ℚ :=
  if l.length = 0 then none
  else if scanIdx x l (l.length - 1) 0 = 0 then some (l.getD 0 0)
  else if x - l.getD (scanIdx x l (l.length - 1) 0 - 1) 0
          < l.getD (scanIdx x l (l.length - 1) 0) 0 - x
       then some (l.getD (scanIdx x l (l.length - 1) 0 - 1) 0)
       else some (l.getD (scanIdx x l (l.length - 1) 0) 0)

/-- rape.py lines 72-78: the loop building the CDF list, carrying the running
sum `acc` (`cdf[0] = pdf[0,1]`, `cdf[i] = cdf[i-1] + pdf[i,1]`). -/
def buildCdfAux (acc : ℚ) : List (ℚ × ℚ) → List ℚ
  | [] => []
  | p :: rest => (acc + p.2) :: buildCdfAux (acc + p.2) rest

/-- The CDF built by `density_interval_length` from a two-column pdf table. -/
def buildCdf (pdf : List (ℚ × ℚ)) : List ℚ := buildCdfAux 0 pdf

/-- rape.py lines 63-92, `density_interval_length(lend, pdf, coverage)`.
The pdf is a list of `(x, mass)` rows.  Result `none` models the `ValueError`
propagated out of `round_in_list` on an empty table; `some none` models the
returned float `inf`; `some (some v)` a finite returned length `v`.
The guard `1 - c < cdf[index]` is Python's `cdf[index] > 1 - coverage`. -/
def density_interval_length (lend : ℚ) (pdf : List (ℚ × ℚ)) (c : ℚ) :
    Option (Option ℚ) :=
  let cdf := buildCdf pdf
  match round_in_list lend (pdf.map Prod.fst) with
  | none => none
  | some index =>
      if 1 - c < cdf.getD index 0 then some none
      else
        match round_in_list (cdf.getD index 0 + c) cdf with
        | none => none
        | some rindex => some (some ((pdf.map Prod.fst).getD rindex 0 - lend))

/-- The cumulative sequence exactly as the spec words it: entry `i` is the
prefix sum of the first `i + 1` masses, in grid order. -/
def cdfSpec (pdf : List (ℚ × ℚ)) : List ℚ :=
  (List.range pdf.length).map
    (fun i => ((pdf.map Prod.snd).take (i + 1)).sum)

/-- `interval_length` written from the spec's step list (section 4.3):
prefix-sum cdf, locate the left index on the x-values, guard against
`cdf[idx] > 1 - coverage`, search the target cumulative value over the
*cumulative* sequence, and return `x[right_idx] - left_endpoint`. -/
def density_interval_length_spec (lend : ℚ) (pdf : List (ℚ × ℚ)) (c : ℚ) :
    Option (Option ℚ) :=
  let cdf := cdfSpec pdf
  match round_in_list lend (pdf.map Prod.fst) with
  | none => none
  | some idx =>
      if 1 - c < cdf.getD idx 0 then some none
      else
        match round_in_list (cdf.getD idx 0 + c) cdf with
        | none => none
        | some rindex =>
            some (some ((pdf.map Prod.fst).getD rindex 0 - lend))

/-! ## The posterior computation (rape.py lines 119-128) -/

/-- rape.py lines 122-124: the binomial likelihood at a grid point,
`comb(n, k) * rho**k * (1-rho)**(n-k)`. -/
def likelihood (k n : ℕ) (rho : ℚ) : ℚ :=
  (n.choose k : ℚ) * rho ^ k * (1 - rho) ^ (n - k)

/-- rape.py line 126: `marginal = sum(rho['likelihood'] * rho['prior'])`,
the elementwise product of the likelihood and prior columns, summed. -/
def marginal (k n : ℕ) (endpoints priors : List ℚ) : ℚ :=
  (List.zipWith (fun e p => likelihood k n e * p) endpoints priors).sum

/-- rape.py line 128:
`rho['post'] = rho['likelihood'] * rho['prior'] / marginal`. -/
def posterior (k n : ℕ) (endpoints priors : List ℚ) : List ℚ :=
  (List.zipWith (fun e p => likelihood k n e * p) endpoints priors).map
    (fun q => q / marginal k n endpoints priors)

/-- The module-level script state (rape.py lines 95-117): grid resolution,
coverage, grid endpoints, prior masses, observation counts. -/
structure Env where
  bins : ℕ
  coverage : ℚ
  endpoints : List ℚ
  priors : List ℚ
  k : ℕ
  n : ℕ

/-- The posterior column the script computes (lines 119-128), as a function
of the ambient script state. -/
def script_posterior (e : Env) : List ℚ :=
  posterior e.k e.n e.endpoints e.priors

/-- The HDI triple the script computes (rape.py lines 136-140): the chosen
left endpoint, the interval length, and `hdi_right = hdi_left + hdi_length`.
`none` is the float `inf` sentinel, which the addition absorbs. -/
structure HDIResult where
  left : ℚ
  length : Option ℚ
  right : Option ℚ

/-- rape.py lines 136-140.  `minimize_scalar` is external library code
(scipy), modelled by the parameter `xsel`: whatever point the minimizer
returns, the script takes it as `hdi_left` and computes `hdi_length` and
`hdi_right` from it.  The outer `none` models a propagated `ValueError`. -/
def find_hdi (xsel : ℚ) (pdf : List (ℚ × ℚ)) (c : ℚ) : Option HDIResult :=
  match density_interval_length xsel pdf c with
  | none => none
  | some len => some ⟨xsel, len, len.map (fun v => xsel + v)⟩

/-! ## Basic facts about the forward scan -/

lemma le_scanIdx (x : ℚ) (l : List ℚ) :
    ∀ fuel i : ℕ, i ≤ scanIdx x l fuel i := by
  intro fuel
  induction fuel with
  | zero => intro i; simp [scanIdx]
  | succ fuel ih =>
      intro i
      simp only [scanIdx]
      split
      · exact le_trans (Nat.le_succ i) (ih (i + 1))
      · exact le_refl i

lemma scanIdx_le (x : ℚ) (l : List ℚ) :
    ∀ fuel i : ℕ, i ≤ l.length - 1 → scanIdx x l fuel i ≤ l.length - 1 := by
  intro fuel
  induction fuel with
  | zero => intro i hi; simpa [scanIdx] using hi
  | succ fuel ih =>
      intro i hi
      simp only [scanIdx]
      split
      · next h => exact ih (i + 1) (by omega)
      · exact hi

lemma scanIdx_before_lt (x : ℚ) (l : List ℚ) :
    ∀ fuel i j : ℕ, i ≤ j → j < scanIdx x l fuel i → l.getD j 0 < x := by
  intro fuel
  induction fuel with
  | zero =>
      intro i j hij hj
      simp only [scanIdx] at hj; omega
  | succ fuel ih =>
      intro i j hij hj
      simp only [scanIdx] at hj
      split at hj
      · next h =>
          rcases Nat.eq_or_lt_of_le hij with heq | hlt
          · exact heq ▸ h.1
          · exact ih (i + 1) j hlt hj
      · omega

lemma scanIdx_stop (x : ℚ) (l : List ℚ) :
    ∀ fuel i : ℕ, i ≤ l.length - 1 → l.length - 1 ≤ fuel + i →
      scanIdx x l fuel i = l.length - 1 ∨
        x ≤ l.getD (scanIdx x l fuel i) 0 := by
  intro fuel
  induction fuel with
  | zero =>
      intro i hi hfi
      left
      simp only [scanIdx]
      omega
  | succ fuel ih =>
      intro i hi hfi
      simp only [scanIdx]
      split
      · next h => exact ih (i + 1) (by omega) (by omega)
      · next h =>
          rcases not_and_or.mp h with h1 | h2
          · right; exact le_of_not_lt h1
          · left; omega

lemma scanIdx_past (x : ℚ) (l : List ℚ) :
    ∀ fuel i m : ℕ, i ≤ m → m < l.length - 1 → m + 1 ≤ fuel + i →
      (∀ j, i ≤ j → j ≤ m → l.getD j 0 < x) →
      m + 1 ≤ scanIdx x l fuel i := by
  intro fuel
  induction fuel with
  | zero => intro i m him hm hfi _; omega
  | succ fuel ih =>
      intro i m him hm hfi hall
      simp only [scanIdx]
      rw [if_pos ⟨hall i le_rfl him, by omega⟩]
      rcases Nat.eq_or_lt_of_le him with heq | hlt
      · subst heq
        exact le_scanIdx x l fuel (i + 1)
      · exact ih (i + 1) m hlt hm (by omega)
          (fun j hj hjm => hall j (by omega) hjm)

/-! ## Basic facts about `round_in_list` -/

lemma round_in_list_eq (x : ℚ) (l : List ℚ) (hne : l.length ≠ 0) :
    round_in_list x l =
      if scanIdx x l (l.length - 1) 0 = 0 then some 0
      else if x - l.getD (scanIdx x l (l.length - 1) 0 - 1) 0
              < l.getD (scanIdx x l (l.length - 1) 0) 0 - x
           then some (scanIdx x l (l.length - 1) 0 - 1)
           else some (scanIdx x l (l.length - 1) 0) := by
  rw [round_in_list, if_neg hne]

lemma round_in_list_value_eq (x : ℚ) (l : List ℚ) (hne : l.length ≠ 0) :
    round_in_list_value x l =
      if scanIdx x l (l.length - 1) 0 = 0 then some (l.getD 0 0)
      else if x - l.getD (scanIdx x l (l.length - 1) 0 - 1) 0
              < l.getD (scanIdx x l (l.length - 1) 0) 0 - x
           then some (l.getD (scanIdx x l (l.length - 1) 0 - 1) 0)
           else some (l.getD (scanIdx x l (l.length - 1) 0) 0) := by
  rw [round_in_list_value, if_neg hne]

lemma round_in_list_some (x : ℚ) (l : List ℚ) (hne : l ≠ []) :
    ∃ j, round_in_list x l = some j ∧ j < l.length := by
  have hlen : l.length ≠ 0 := fun h => hne (List.length_eq_zero.mp h)
  have hscan : scanIdx x l (l.length - 1) 0 ≤ l.length - 1 :=
    scanIdx_le x l (l.length - 1) 0 (Nat.zero_le _)
  rw [round_in_list_eq x l hlen]
  split
  · exact ⟨0, rfl, by omega⟩
  · split
    · exact ⟨_, rfl, by omega⟩
    · exact ⟨_, rfl, by omega⟩

lemma round_in_list_lt_length {x : ℚ} {l : List ℚ} {j : ℕ}
    (h : round_in_list x l = some j) : j < l.length := by
  by_cases hlen : l.length = 0
  · rw [round_in_list, if_pos hlen] at h; exact absurd h (by simp)
  · obtain ⟨j', hj', hlt⟩ := round_in_list_some x l
      (fun he => hlen (by simp [he]))
    rw [h] at hj'
    exact (Option.some.inj hj') ▸ hlt

/-- If every entry up to position `t` is strictly below the query, the
returned index is at least `t`. -/
lemma round_in_list_ge {y : ℚ} {l : List ℚ} {t j : ℕ} (ht : t < l.length)
    (hall : ∀ s, s ≤ t → l.getD s 0 < y)
    (h : round_in_list y l = some j) : t ≤ j := by
  have hlen : l.length ≠ 0 := by omega
  have hscan : scanIdx y l (l.length - 1) 0 ≤ l.length - 1 :=
    scanIdx_le y l (l.length - 1) 0 (Nat.zero_le _)
  rw [round_in_list_eq y l hlen] at h
  by_cases hcase : t < l.length - 1
  · -- the scan must pass position `t`
    have hpast : t + 1 ≤ scanIdx y l (l.length - 1) 0 :=
      scanIdx_past y l (l.length - 1) 0 t (Nat.zero_le _) hcase (by omega)
        (fun s _ hs => hall s hs)
    rw [if_neg (by omega)] at h
    split at h <;> · have := Option.some.inj h; omega
  · -- `t` is the last index; the scan runs to the end and does not step back
    have htop : t = l.length - 1 := by omega
    have hstop := scanIdx_stop y l (l.length - 1) 0 (Nat.zero_le _)
      (by omega)
    have hi : scanIdx y l (l.length - 1) 0 = l.length - 1 := by
      rcases hstop with h1 | h2
      · exact h1
      · exact absurd h2 (not_le.mpr (hall _ (by omega)))
    by_cases h0 : l.length - 1 = 0
    · rw [if_pos (by omega)] at h
      have := Option.some.inj h; omega
    · rw [if_neg (by omega)] at h
      have hlast : l.getD (l.length - 1) 0 < y := hall _ (by omega)
      have hprev : l.getD (l.length - 1 - 1) 0 < y := hall _ (by omega)
      rw [hi, if_neg (by linarith)] at h
      have := Option.some.inj h; omega

/-! ## Access to sorted lists via `getD` -/

lemma sorted_getD_le {l : List ℚ} (hs : l.Sorted (fun a b => a ≤ b))
    {i j : ℕ} (hij : i ≤ j) (hj : j < l.length) :
    l.getD i 0 ≤ l.getD j 0 := by
  rcases Nat.eq_or_lt_of_le hij with heq | hlt
  · exact heq ▸ le_rfl
  · have hi : i < l.length := lt_trans hlt hj
    rw [l.getD_eq_getElem 0 hi, l.getD_eq_getElem 0 hj]
    exact List.pairwise_iff_get.mp hs ⟨i, hi⟩ ⟨j, hj⟩ hlt

lemma sorted_getD_lt {l : List ℚ} (hs : l.Sorted (fun a b => a < b))
    {i j : ℕ} (hij : i < j) (hj : j < l.length) :
    l.getD i 0 < l.getD j 0 := by
  have hi : i < l.length := lt_trans hij hj
  rw [l.getD_eq_getElem 0 hi, l.getD_eq_getElem 0 hj]
  exact List.pairwise_iff_get.mp hs ⟨i, hi⟩ ⟨j, hj⟩ hij

/-- If `x` sits exactly midway between two consecutive entries of a strictly
sorted list, the scan stops at the later entry and the strict comparison on
line 56 fails, so the later index is returned. -/
lemma round_in_list_midpoint (l : List ℚ) (x : ℚ)
    (hs : l.Sorted (fun a b => a < b)) (a : ℕ) (ha : a + 1 < l.length)
    (hmid : x - l.getD a 0 = l.getD (a + 1) 0 - x) :
    round_in_list x l = some (a + 1) := by
  have hn : l.length ≠ 0 := by omega
  have hlt : l.getD a 0 < l.getD (a + 1) 0 :=
    sorted_getD_lt hs (Nat.lt_succ_self a) ha
  have hax : l.getD a 0 < x := by linarith
  have hxa : x < l.getD (a + 1) 0 := by linarith
  have hallbelow : ∀ j, j ≤ a → l.getD j 0 < x := by
    intro j hj
    rcases Nat.eq_or_lt_of_le hj with heq | hlt2
    · exact heq ▸ hax
    · exact lt_trans (sorted_getD_lt hs hlt2 (by omega)) hax
  have hge : a + 1 ≤ scanIdx x l (l.length - 1) 0 :=
    scanIdx_past x l (l.length - 1) 0 a (Nat.zero_le _) (by omega) (by omega)
      (fun j _ hj => hallbelow j hj)
  have hle2 : scanIdx x l (l.length - 1) 0 ≤ a + 1 := by
    by_contra hgt
    push_neg at hgt
    exact absurd (scanIdx_before_lt x l (l.length - 1) 0 (a + 1)
      (Nat.zero_le _) hgt) (not_lt.mpr (le_of_lt hxa))
  have hS : scanIdx x l (l.length - 1) 0 = a + 1 := le_antisymm hle2 hge
  rw [round_in_list_eq x l hn, hS, if_neg (by omega)]
  have hnb : ¬ (x - l.getD (a + 1 - 1) 0 < l.getD (a + 1) 0 - x) := by
    simp only [Nat.add_sub_cancel]
    rw [hmid]
    exact lt_irrefl _
  rw [if_neg hnb]

/-- **C9**: `round_in_list` on the empty list fails (the raised `ValueError`,
modelled by `none`) for every query and for both values of the flag,
returning no index and no value. -/
theorem C9_empty_list_error (x : ℚ) :
    round_in_list x ([] : List ℚ) = none ∧
    round_in_list_value x ([] : List ℚ) = none := by
  constructor <;> rfl

/-- **C2 (amended)**: for every nonempty strictly sorted list, `round_in_list`
returns an in-bounds index whose element is at least as close to the query as
either neighboring element; but when the query is exactly equidistant between
two consecutive elements, the *later* (successor) index is returned, because
line 56 steps back only on a strict inequality. -/
theorem C2_round_nearest_tie_to_later (l : List ℚ) (x : ℚ)
    (hs : l.Sorted (fun a b => a < b)) (hne : l ≠ []) :
    ∃ j, round_in_list x l = some j ∧ j < l.length ∧
      (∀ m, m < l.length → (m + 1 = j ∨ j + 1 = m) →
        |l.getD j 0 - x| ≤ |l.getD m 0 - x|) ∧
      (∀ a, a + 1 < l.length → x - l.getD a 0 = l.getD (a + 1) 0 - x →
        round_in_list x l = some (a + 1)) := by
  have hn : l.length ≠ 0 := fun h => hne (List.length_eq_zero.mp h)
  have hle := scanIdx_le x l (l.length - 1) 0 (Nat.zero_le _)
  have hbefore := fun j hj =>
    scanIdx_before_lt x l (l.length - 1) 0 j (Nat.zero_le _) hj
  have hstop := scanIdx_stop x l (l.length - 1) 0 (Nat.zero_le _)
    (by omega)
  have heq := round_in_list_eq x l hn
  have htie : ∀ a, a + 1 < l.length →
      x - l.getD a 0 = l.getD (a + 1) 0 - x →
      round_in_list x l = some (a + 1) := fun a ha hmid =>
    round_in_list_midpoint l x hs a ha hmid
  set S := scanIdx x l (l.length - 1) 0 with hSdef
  by_cases hi0 : S = 0
  · refine ⟨0, ?_, by omega, ?_, htie⟩
    · rw [heq, if_pos hi0]
    · intro m hm hnb
      have hm1 : m = 1 := by omega
      subst hm1
      have hx0 : x ≤ l.getD 0 0 := by
        rcases hstop with h1 | h2
        · omega
        · rwa [hi0] at h2
      have h01 : l.getD 0 0 < l.getD 1 0 := sorted_getD_lt hs (by omega) hm
      rw [abs_of_nonneg (by linarith), abs_of_nonneg (by linarith)]
      linarith
  · have hprev : l.getD (S - 1) 0 < x := hbefore _ (by omega)
    by_cases hback : x - l.getD (S - 1) 0 < l.getD S 0 - x
    · -- step back one index
      refine ⟨S - 1, ?_, by omega, ?_, htie⟩
      · rw [heq, if_neg hi0, if_pos hback]
      · intro m hm hnb
        rcases hnb with h1 | h2
        · -- the predecessor of the chosen index
          have hmS : m < S - 1 := by omega
          have hml : l.getD m 0 < l.getD (S - 1) 0 :=
            sorted_getD_lt hs hmS (by omega)
          rw [abs_of_neg (by linarith), abs_of_neg (by linarith)]
          linarith
        · -- the successor of the chosen index is the scan stop itself
          have hmS : m = S := by omega
          subst hmS
          rw [abs_of_neg (by linarith), abs_of_nonneg (by linarith)]
          linarith
    · -- keep the scan stop
      have hnoback : l.getD S 0 - x ≤ x - l.getD (S - 1) 0 := not_lt.mp hback
      refine ⟨S, ?_, by omega, ?_, htie⟩
      · rw [heq, if_neg hi0, if_neg hback]
      · intro m hm hnb
        rcases hnb with h1 | h2
        · -- the predecessor
          have hmS : m = S - 1 := by omega
          subst hmS
          have hSS : l.getD (S - 1) 0 < l.getD S 0 :=
            sorted_getD_lt hs (by omega) (by omega)
          rw [abs_of_neg (show l.getD (S - 1) 0 - x < 0 by linarith)]
          refine abs_le.mpr ⟨by linarith, by linarith⟩
        · -- the successor: the scan stopped at an element not below `x`
          have hmS : m = S + 1 := by omega
          subst hmS
          have hxS : x ≤ l.getD S 0 := by
            rcases hstop with hh | hh
            · omega
            · exact hh
          have hSS : l.getD S 0 < l.getD (S + 1) 0 :=
            sorted_getD_lt hs (by omega) hm
          rw [abs_of_nonneg (by linarith), abs_of_nonneg (by linarith)]
          linarith

/-- Witness for C2: in the grid `[0, 1/2]` the query `1/4` is exactly midway;
the later index 1 is returned. -/
theorem C2_witness : round_in_list (1/4 : ℚ) [0, 1/2] = some (0 + 1) := by
  obtain ⟨j, hj, hlt, hnear, htie⟩ :=
    C2_round_nearest_tie_to_later [0, 1/2] (1/4)
      (by norm_num [List.sorted_cons]) (by simp)
  exact htie 0 (by norm_num) (by norm_num [List.getD])

/-- Counterexample to C2 as stated: in the sorted list `[0, 2]` the query `1`
is exactly equidistant between the two elements, yet the returned index is the
successor 1, not the predecessor 0. -/
theorem C2_counterexample :
    ((0:ℚ) < 2) ∧ ((1:ℚ) - 0 = 2 - 1) ∧
    round_in_list (1:ℚ) [0, 2] = some 1 ∧
    round_in_list (1:ℚ) [0, 2] ≠ some 0 := by
  norm_num [round_in_list, scanIdx]

/-- **C10 (amended)**: for every non-empty sorted list the forward scan of
`round_in_list` is clamped to the last index (so no list access is out of
bounds) and the returned index is in bounds; and when the list is *strictly*
sorted, every query at or above the last element returns the last index (the
last element, with `value=True`).  With duplicated values the scan stops at
the first duplicate and can return an earlier index, see the
counterexample. -/
theorem C10_scan_clamped_amended (l : List ℚ) (x : ℚ)
    (hs : l.Sorted (fun a b => a ≤ b)) (hne : l ≠ []) :
    scanIdx x l (l.length - 1) 0 ≤ l.length - 1 ∧
    (∃ j, round_in_list x l = some j ∧ j < l.length) ∧
    (l.Sorted (fun a b => a < b) → l.getD (l.length - 1) 0 ≤ x →
      round_in_list x l = some (l.length - 1) ∧
      round_in_list_value x l = some (l.getD (l.length - 1) 0)) := by
  have hn : l.length ≠ 0 := fun h => hne (List.length_eq_zero.mp h)
  refine ⟨scanIdx_le x l _ 0 (Nat.zero_le _), round_in_list_some x l hne, ?_⟩
  intro hstrict hlast
  by_cases h1 : l.length = 1
  · have hS : scanIdx x l (l.length - 1) 0 = 0 := by
      rw [h1]; rfl
    constructor
    · rw [round_in_list_eq x l hn, if_pos hS, h1]
    · rw [round_in_list_value_eq x l hn, if_pos hS, h1]
  · -- at least two elements: the scan runs all the way to the last index
    have h2 : 2 ≤ l.length := by omega
    have hS : scanIdx x l (l.length - 1) 0 = l.length - 1 := by
      refine le_antisymm (scanIdx_le x l _ 0 (Nat.zero_le _)) ?_
      have := scanIdx_past x l (l.length - 1) 0 (l.length - 2)
        (Nat.zero_le _) (by omega) (by omega)
        (fun j _ hj =>
          lt_of_lt_of_le (sorted_getD_lt hstrict (by omega) (by omega)) hlast)
      omega
    have hprevlt : l.getD (l.length - 1 - 1) 0 < l.getD (l.length - 1) 0 :=
      sorted_getD_lt hstrict (by omega) (by omega)
    have hnb : ¬ (x - l.getD (l.length - 1 - 1) 0
        < l.getD (l.length - 1) 0 - x) := by
      push_neg
      linarith
    constructor
    · rw [round_in_list_eq x l hn, hS, if_neg (by omega), if_neg hnb]
    · rw [round_in_list_value_eq x l hn, hS, if_neg (by omega), if_neg hnb]

/-- Counterexample to C10 as stated: the list `[1/2, 1, 1]` is sorted (with a
tie, the shape of a cdf whose last mass is zero) and the query `1` is at least
its last element, yet the returned index is 1, not the last index 2: the scan
stops at the first duplicate and the strict step-back test then fails. -/
theorem C10_counterexample :
    ((1:ℚ)/2 ≤ 1 ∧ (1:ℚ) ≤ 1) ∧
    ([(1:ℚ)/2, 1, 1].getD 2 0 ≤ 1) ∧
    round_in_list (1:ℚ) [1/2, 1, 1] = some 1 ∧
    round_in_list (1:ℚ) [1/2, 1, 1] ≠ some 2 := by
  norm_num [round_in_list, scanIdx, List.getD]

/-- Witness for the amended C10 at the strictly sorted grid `[0, 1/2]` with
query `3` past the right edge. -/
theorem C10_witness :
    round_in_list (3:ℚ) [0, 1/2] = some 1 ∧
    round_in_list_value (3:ℚ) [0, 1/2] = some (1/2) := by
  have h := (C10_scan_clamped_amended [0, 1/2] 3
    (by norm_num [List.sorted_cons]) (by simp)).2.2
    (by norm_num [List.sorted_cons]) (by norm_num [List.getD])
  simpa [List.getD] using h

/-! ## The CDF built by `density_interval_length` -/

lemma buildCdfAux_length (a : ℚ) (l : List (ℚ × ℚ)) :
    (buildCdfAux a l).length = l.length := by
  induction l generalizing a with
  | nil => rfl
  | cons p rest ih => simp [buildCdfAux, ih]

lemma buildCdf_length (pdf : List (ℚ × ℚ)) :
    (buildCdf pdf).length = pdf.length :=
  buildCdfAux_length 0 pdf

/-- The running-sum loop produces exactly the prefix sums shifted by the
initial accumulator. -/
lemma buildCdfAux_eq (l : List (ℚ × ℚ)) :
    ∀ a : ℚ, buildCdfAux a l =
      (List.range l.length).map
        (fun i => a + ((l.map Prod.snd).take (i + 1)).sum) := by
  induction l with
  | nil => intro a; rfl
  | cons p rest ih =>
      intro a
      simp only [buildCdfAux, List.length_cons, List.range_succ_eq_map,
        List.map_cons, List.map_map]
      rw [ih (a + p.2)]
      congr 1
      · simp
      · refine List.map_congr_left (fun i hi => ?_)
        simp [Function.comp, List.take_succ_cons, add_assoc]

lemma buildCdf_eq_cdfSpec (pdf : List (ℚ × ℚ)) :
    buildCdf pdf = cdfSpec pdf := by
  rw [buildCdf, buildCdfAux_eq]
  simp [cdfSpec]

/-- **C1**: for every nonempty table with sorted x-values, every left endpoint
and every coverage, `density_interval_length` computes exactly the algorithm
the spec states: prefix-sum cdf, nearest x-index, the `cdf[idx] > 1-c`
infinity guard, and a right index found by searching the cumulative sequence
(not the x-values), returning `x[rindex] - lend`. -/
theorem C1_density_interval_refines_spec (lend c : ℚ) (pdf : List (ℚ × ℚ))
    (hne : pdf ≠ [])
    (hsort : (pdf.map Prod.fst).Sorted (fun a b => a < b)) :
    density_interval_length lend pdf c =
      density_interval_length_spec lend pdf c := by
  simp only [density_interval_length, density_interval_length_spec,
    buildCdf_eq_cdfSpec]

/-- Witness for C1 at a concrete two-point table. -/
theorem C1_witness :
    density_interval_length 0 [((0:ℚ), (1/2:ℚ)), (1/2, 1/2)] (1/2) =
      density_interval_length_spec 0 [((0:ℚ), (1/2:ℚ)), (1/2, 1/2)] (1/2) :=
  C1_density_interval_refines_spec 0 (1/2) _ (by simp)
    (by norm_num [List.sorted_cons])

/-! ## Monotonicity of the CDF (nonnegative masses) -/

lemma buildCdfAux_acc_le (l : List (ℚ × ℚ)) :
    ∀ (a : ℚ) (k : ℕ), (∀ p ∈ l, 0 ≤ p.2) → k < l.length →
      a ≤ (buildCdfAux a l).getD k 0 := by
  induction l with
  | nil => intro a k _ hk; simp at hk
  | cons p rest ih =>
      intro a k hmass hk
      have hp : 0 ≤ p.2 := hmass p (List.mem_cons_self p rest)
      cases k with
      | zero => simp only [buildCdfAux, List.getD_cons_zero]; linarith
      | succ k =>
          simp only [buildCdfAux, List.getD_cons_succ]
          refine le_trans (by linarith : a ≤ a + p.2) ?_
          exact ih (a + p.2) k
            (fun q hq => hmass q (List.mem_cons_of_mem p hq))
            (by simpa using hk)

lemma buildCdfAux_mono (l : List (ℚ × ℚ)) :
    ∀ (a : ℚ) (i j : ℕ), (∀ p ∈ l, 0 ≤ p.2) → i ≤ j → j < l.length →
      (buildCdfAux a l).getD i 0 ≤ (buildCdfAux a l).getD j 0 := by
  induction l with
  | nil => intro a i j _ _ hj; simp at hj
  | cons p rest ih =>
      intro a i j hmass hij hj
      cases i with
      | zero =>
          cases j with
          | zero => exact le_rfl
          | succ j =>
              simp only [buildCdfAux, List.getD_cons_zero,
                List.getD_cons_succ]
              exact buildCdfAux_acc_le rest (a + p.2) j
                (fun q hq => hmass q (List.mem_cons_of_mem p hq))
                (by simpa using hj)
      | succ i =>
          cases j with
          | zero => omega
          | succ j =>
              simp only [buildCdfAux, List.getD_cons_succ]
              exact ih (a + p.2) i j
                (fun q hq => hmass q (List.mem_cons_of_mem p hq))
                (by omega) (by simpa using hj)

/-- **C7 (amended)**: a finite value of `density_interval_length` is
nonnegative provided the masses are nonnegative, the coverage is positive,
and the left endpoint does not exceed the grid value nearest to it (without
that last proviso the value can be negative, see the counterexample: rounding
`lend` down to the grid can place the right endpoint left of `lend`).
`+infinity` (`some none`) is a sentinel produced only by the coverage guard,
not an error. -/
theorem C7_nonneg_when_lend_le_nearest (pdf : List (ℚ × ℚ))
    (lend c v : ℚ) (idx : ℕ)
    (hsort : (pdf.map Prod.fst).Sorted (fun a b => a ≤ b))
    (hmass : ∀ p ∈ pdf, 0 ≤ p.2) (hc : 0 < c)
    (hround : round_in_list lend (pdf.map Prod.fst) = some idx)
    (hlend : lend ≤ (pdf.map Prod.fst).getD idx 0)
    (hfin : density_interval_length lend pdf c = some (some v)) :
    0 ≤ v := by
  have hidx : idx < pdf.length := by
    have := round_in_list_lt_length hround
    rwa [List.length_map] at this
  have hidxcdf : idx < (buildCdf pdf).length := by
    rw [buildCdf_length]; exact hidx
  have hcdfne : buildCdf pdf ≠ [] := by
    intro h
    rw [h] at hidxcdf
    simp at hidxcdf
  simp only [density_interval_length, hround] at hfin
  by_cases hguard : 1 - c < (buildCdf pdf).getD idx 0
  · rw [if_pos hguard] at hfin
    exact absurd hfin (by simp)
  · rw [if_neg hguard] at hfin
    obtain ⟨r, hr, hrlen⟩ :=
      round_in_list_some ((buildCdf pdf).getD idx 0 + c) (buildCdf pdf)
        hcdfne
    rw [hr] at hfin
    simp only [Option.some.injEq] at hfin
    have hmono : ∀ s, s ≤ idx →
        (buildCdf pdf).getD s 0 < (buildCdf pdf).getD idx 0 + c := by
      intro s hs
      have := buildCdfAux_mono pdf 0 s idx hmass hs hidx
      calc (buildCdf pdf).getD s 0 ≤ (buildCdf pdf).getD idx 0 := this
        _ < (buildCdf pdf).getD idx 0 + c := by linarith
    have hge : idx ≤ r := round_in_list_ge hidxcdf hmono hr
    have hrx : r < pdf.length := by rwa [buildCdf_length] at hrlen
    have hle2 : (pdf.map Prod.fst).getD idx 0 ≤ (pdf.map Prod.fst).getD r 0 :=
      sorted_getD_le hsort hge (by rwa [List.length_map])
    rw [← hfin]
    linarith

/-- Counterexample to C7 as stated: a normalized, sorted, nonnegative density
table on which `density_interval_length` returns a *negative* finite value
(the left endpoint `1/5` rounds down to the grid point `0`). -/
theorem C7_counterexample :
    (([((0:ℚ), (0:ℚ)), (1/2, 1)]).map Prod.snd).sum = 1 ∧
    density_interval_length (1/5) [((0:ℚ), (0:ℚ)), (1/2, 1)] (3/10) =
      some (some (-(1/5))) ∧ (-(1/5) : ℚ) < 0 := by
  refine ⟨by norm_num, ?_, by norm_num⟩
  norm_num [density_interval_length, buildCdf, buildCdfAux, round_in_list,
    scanIdx]

/-- Witness for the amended C7 at a two-point uniform table. -/
theorem C7_witness :
    density_interval_length 0 [((0:ℚ), (1/2:ℚ)), (1/2, 1/2)] (1/2) =
      some (some (1/2)) ∧ (0:ℚ) ≤ 1/2 := by
  have hround :
      round_in_list (0:ℚ) ([((0:ℚ), (1/2:ℚ)), (1/2, 1/2)].map Prod.fst) =
        some 0 := by
    norm_num [round_in_list, scanIdx]
  have hfin :
      density_interval_length 0 [((0:ℚ), (1/2:ℚ)), (1/2, 1/2)] (1/2) =
        some (some (1/2)) := by
    norm_num [density_interval_length, buildCdf, buildCdfAux, round_in_list,
      scanIdx]
  exact ⟨hfin, C7_nonneg_when_lend_le_nearest _ 0 (1/2) (1/2) 0
    (by norm_num [List.sorted_cons]) (by norm_num [List.forall_mem_cons])
    (by norm_num) hround (by norm_num [List.getD]) hfin⟩

/-! ## List helpers for the posterior table -/

lemma sum_map_div (l : List ℚ) (m : ℚ) :
    (l.map (fun q => q / m)).sum = l.sum / m := by
  induction l with
  | nil => simp
  | cons q rest ih => simp [ih, add_div]

lemma getD_map (f : ℚ → ℚ) (l : List ℚ) :
    ∀ i : ℕ, i < l.length → (l.map f).getD i 0 = f (l.getD i 0) := by
  induction l with
  | nil => intro i hi; simp at hi
  | cons a rest ih =>
      intro i hi
      cases i with
      | zero => simp
      | succ i => simpa using ih i (by simpa using hi)

lemma getD_zipWith (f : ℚ → ℚ → ℚ) :
    ∀ (as bs : List ℚ) (i : ℕ), i < as.length → i < bs.length →
      (List.zipWith f as bs).getD i 0 = f (as.getD i 0) (bs.getD i 0) := by
  intro as
  induction as with
  | nil => intro bs i hi _; simp at hi
  | cons a as ih =>
      intro bs i hi hbi
      cases bs with
      | nil => simp at hbi
      | cons b bs =>
          cases i with
          | zero => simp
          | succ i =>
              simpa using ih bs i (by simpa using hi) (by simpa using hbi)

lemma zipWith_proj_right :
    ∀ as bs : List ℚ, as.length = bs.length →
      List.zipWith (fun _ p => p) as bs = bs := by
  intro as
  induction as with
  | nil =>
      intro bs h
      cases bs with
      | nil => rfl
      | cons b bs => simp at h
  | cons a as ih =>
      intro bs h
      cases bs with
      | nil => simp at h
      | cons b bs => simp [ih bs (by simpa using h)]

lemma posterior_length (endpoints priors : List ℚ) (k n : ℕ)
    (hlen : priors.length = endpoints.length) :
    (posterior k n endpoints priors).length = endpoints.length := by
  simp [posterior, hlen]

lemma posterior_getD (endpoints priors : List ℚ) (k n : ℕ)
    (hlen : priors.length = endpoints.length) (i : ℕ)
    (hi : i < endpoints.length) :
    (posterior k n endpoints priors).getD i 0 =
      likelihood k n (endpoints.getD i 0) * priors.getD i 0 /
        marginal k n endpoints priors := by
  rw [posterior, getD_map _ _ i (by simp [hlen]; omega),
    getD_zipWith _ endpoints priors i hi (hlen ▸ hi)]

/-- **C3**: for a valid grid, priors of matching length, an observation
`k ≤ n`, and a nonzero marginal, the posterior masses sum to exactly 1 in
exact arithmetic, and the table has the grid's cardinality with entry `i`
computed from grid point `i` (same ordering). -/
theorem C3_posterior_normalized (endpoints priors : List ℚ) (k n : ℕ)
    (hkn : k ≤ n) (hsort : endpoints.Sorted (fun a b => a < b))
    (hlen : priors.length = endpoints.length)
    (hm : marginal k n endpoints priors ≠ 0) :
    (posterior k n endpoints priors).sum = 1 ∧
    (posterior k n endpoints priors).length = endpoints.length ∧
    ∀ i, i < endpoints.length →
      (posterior k n endpoints priors).getD i 0 =
        likelihood k n (endpoints.getD i 0) * priors.getD i 0 /
          marginal k n endpoints priors := by
  refine ⟨?_, posterior_length endpoints priors k n hlen,
    fun i hi => posterior_getD endpoints priors k n hlen i hi⟩
  rw [posterior, sum_map_div]
  exact div_self hm

/-- Witness for C3: grid `[0, 1/2]`, flat priors, observation `k=1, n=2`. -/
theorem C3_witness :
    marginal 1 2 [(0:ℚ), 1/2] [1, 1] ≠ 0 ∧
    (posterior 1 2 [(0:ℚ), 1/2] [1, 1]).sum = 1 := by
  have hm : marginal 1 2 [(0:ℚ), 1/2] [1, 1] ≠ 0 := by
    norm_num [marginal, likelihood, show Nat.choose 2 1 = 2 from rfl]
  exact ⟨hm, (C3_posterior_normalized [(0:ℚ), 1/2] [1, 1] 1 2 (by norm_num)
    (by norm_num [List.sorted_cons]) (by simp) hm).1⟩

/-- **C4 (amended)**: when the marginal computes to zero the script does not
fail: line 128 performs the division anyway and still produces a posterior
column with one entry per grid point, each entry being the (degenerate)
quotient `likelihood * prior / marginal`.  No `DegeneratePosterior`
condition exists in the code. -/
theorem C4_zero_marginal_still_divides (endpoints priors : List ℚ) (k n : ℕ)
    (hlen : priors.length = endpoints.length)
    (hm : marginal k n endpoints priors = 0) :
    (posterior k n endpoints priors).length = endpoints.length ∧
    ∀ i, i < endpoints.length →
      (posterior k n endpoints priors).getD i 0 =
        likelihood k n (endpoints.getD i 0) * priors.getD i 0 /
          marginal k n endpoints priors :=
  ⟨posterior_length endpoints priors k n hlen,
    fun i hi => posterior_getD endpoints priors k n hlen i hi⟩

/-- Counterexample to C4 as stated: a zero-mass prior makes the marginal
zero, yet a full-length posterior table is still produced (no failure). -/
theorem C4_counterexample :
    marginal 1 1 [(0:ℚ), 1/2] [0, 0] = 0 ∧
    (posterior 1 1 [(0:ℚ), 1/2] [0, 0]).length = 2 := by
  constructor
  · norm_num [marginal, likelihood]
  · norm_num [posterior]

/-- Witness for the amended C4 on a different zero-marginal input. -/
theorem C4_witness :
    marginal 1 1 [(0:ℚ), 1] [0, 0] = 0 ∧
    (posterior 1 1 [(0:ℚ), 1] [0, 0]).length = 2 := by
  have hm : marginal 1 1 [(0:ℚ), 1] [0, 0] = 0 := by
    norm_num [marginal, likelihood]
  have h := C4_zero_marginal_still_divides [(0:ℚ), 1] [0, 0] 1 1 (by simp) hm
  exact ⟨hm, by simpa using h.1⟩

lemma likelihood_zero_zero (rho : ℚ) : likelihood 0 0 rho = 1 := by
  simp [likelihood]

/-- **C6 (amended)**: the script performs no input validation at all; in
particular the degenerate observation `k = 0, n = 0` is not rejected with
`InvalidInput` but silently yields a posterior: the prior normalized by its
own sum (the likelihood is constantly 1). -/
theorem C6_no_validation_k0_n0 (endpoints priors : List ℚ)
    (hlen : priors.length = endpoints.length) :
    posterior 0 0 endpoints priors = priors.map (fun p => p / priors.sum) := by
  have hz : List.zipWith (fun e p => likelihood 0 0 e * p) endpoints priors
      = priors := by
    simp only [likelihood_zero_zero, one_mul]
    exact zipWith_proj_right endpoints priors hlen.symm
  have hmarg : marginal 0 0 endpoints priors = priors.sum := by
    rw [marginal, hz]
  rw [posterior, hz, hmarg]

/-- Counterexample to C6 as stated: with `k = 0, n = 0` a posterior table is
silently produced (here the normalized prior), not an `InvalidInput`
failure. -/
theorem C6_counterexample :
    posterior 0 0 [(0:ℚ), 1/2] [1, 3] = [1/4, 3/4] := by
  norm_num [posterior, marginal, likelihood]

/-- Witness for the amended C6 on a one-point grid. -/
theorem C6_witness :
    posterior 0 0 [(0:ℚ)] [2] = [(2:ℚ)].map (fun p => p / List.sum [(2:ℚ)]) :=
  C6_no_validation_k0_n0 [(0:ℚ)] [2] (by simp)

/-- **C8**: the inference is deterministic and reads nothing but the grid,
the prior, and the counts: two runs whose ambient script states agree on
those four produce identical posterior tables (also pointwise at every grid
position), whatever the rest of the state (`bins`, `coverage`) is. -/
theorem C8_posterior_deterministic (e1 e2 : Env)
    (hg : e1.endpoints = e2.endpoints) (hp : e1.priors = e2.priors)
    (hk : e1.k = e2.k) (hn : e1.n = e2.n) :
    script_posterior e1 = script_posterior e2 ∧
    ∀ i : ℕ, (script_posterior e1).getD i 0 =
      (script_posterior e2).getD i 0 := by
  have h : script_posterior e1 = script_posterior e2 := by
    rw [script_posterior, script_posterior, hg, hp, hk, hn]
  exact ⟨h, fun i => by rw [h]⟩

/-- Witness for C8: two states sharing grid, prior and counts but differing
in `bins` and `coverage` give the same posterior column. -/
theorem C8_witness :
    script_posterior ⟨1000, 19/20, [0, 1/2], [1, 1], 26, 82⟩ =
      script_posterior ⟨500, 1/2, [0, 1/2], [1, 1], 26, 82⟩ :=
  (C8_posterior_deterministic _ _ rfl rfl rfl rfl).1

/-! ## The HDI step -/

/-- On this unnormalized table every left endpoint trips the coverage guard
of `density_interval_length`, so every candidate length is the infinity
sentinel. -/
lemma all_endpoints_inf :
    ∀ lend : ℚ,
      density_interval_length lend [((0:ℚ), (1/10:ℚ)), (1/2, 1/5)] (19/20) =
        some none := by
  intro lend
  obtain ⟨j, hj, hlt⟩ := round_in_list_some lend
    ([((0:ℚ), (1/10:ℚ)), (1/2, 1/5)].map Prod.fst) (by simp)
  simp only [List.length_map, List.length_cons, List.length_nil] at hlt
  simp only [density_interval_length, hj]
  have hguard : 1 - 19/20
      < (buildCdf [((0:ℚ), (1/10:ℚ)), (1/2, 1/5)]).getD j 0 := by
    interval_cases j <;> norm_num [buildCdf, buildCdfAux]
  rw [if_pos hguard]

/-- **C5 (amended)**: no `UnsatisfiableCoverage` failure exists.  When every
candidate left endpoint yields the infinity sentinel, the script still
returns an HDI result for whatever point the external minimizer picks: the
sentinel is simply propagated into the length and the right endpoint. -/
theorem C5_inf_everywhere_still_returns (pdf : List (ℚ × ℚ)) (c xsel : ℚ)
    (hall : ∀ lend : ℚ, density_interval_length lend pdf c = some none) :
    find_hdi xsel pdf c = some ⟨xsel, none, none⟩ := by
  simp only [find_hdi, hall xsel]
  rfl

/-- Counterexample to C5 as stated: on a table where every candidate left
endpoint yields infinity, `find_hdi` returns a result (with the sentinel
length) instead of failing. -/
theorem C5_counterexample :
    (∀ lend : ℚ,
      density_interval_length lend [((0:ℚ), (1/10:ℚ)), (1/2, 1/5)] (19/20) =
        some none) ∧
    find_hdi 0 [((0:ℚ), (1/10:ℚ)), (1/2, 1/5)] (19/20) =
      some ⟨0, none, none⟩ := by
  refine ⟨all_endpoints_inf, ?_⟩
  simp only [find_hdi, all_endpoints_inf 0]
  rfl

/-- Witness for the amended C5 with the minimizer returning `1/3`. -/
theorem C5_witness :
    find_hdi (1/3) [((0:ℚ), (1/10:ℚ)), (1/2, 1/5)] (19/20) =
      some ⟨1/3, none, none⟩ :=
  C5_inf_everywhere_still_returns _ _ (1/3) all_endpoints_inf

end RapeBayes
